import Mathlib

/-!
Verification of the multipage-export pipeline of
lazyflow/operators/ioOperators/opExportMultipageTiff.py
(class OpExportMultipageTiff).

The embedding below translates the source operator into pure Lean
functions.  Machine arithmetic: the source is Python 2, so `/` on
non-negative integers is floor division (modelled with Nat division)
and int() on a non-negative float truncates toward zero (modelled with
pyInt on rationals; the float arithmetic of the sizer is modelled
exactly over the rationals).

The request framework (lazyflow.request), OrderedSignal and
roiFromShape are code of this repository that is not under src/; they
are modelled from the spec: issuing a request is non-blocking and
returns a handle; waiting on a handle blocks until that request has
completed and then yields that request's own buffer or raises that
request's own error; the progress signal simply records each value it
is called with.  The order in which concurrently running fetches
complete is an explicit parameter (a completion schedule); waiting
consumes the schedule until the awaited index has completed, so the
schedule is observable in the event trace but, by construction of the
source's wait, never changes which buffer a given request yields.
-/

deriving instance DecidableEq for Except

namespace LazyflowExport

/-- One observable action of the export pipeline.  The payload type D
is the slice buffer type delivered by the source. -/
inductive Event (D : Type) where
  /-- the pre-existing output file is removed -/
  | delete : Event D
  /-- a fetch for the given slice index is issued (non-blocking) -/
  | issue : ℕ → Event D
  /-- the fetch for the given slice index completes (observed while waiting) -/
  | complete : ℕ → Event D
  /-- the progress signal is called with the given value -/
  | progress : ℕ → Event D
  /-- the request at the head of the FIFO window is popped and awaited -/
  | consume : ℕ → Event D
  /-- the buffer of the given slice index is appended as one page -/
  | page : ℕ → D → Event D
  deriving DecidableEq

variable {E D : Type}

/-- Modelled from the spec: waiting on the handle of slice index i.
The pending list is the completion schedule not yet processed; the
completed list holds the indices whose fetches have already completed.
Waiting consumes the schedule until i has completed (if the schedule
is exhausted first, the fetch for i completes last).  Returns the new
pending schedule, the new completed set, and the indices observed to
complete during this wait, in completion order. -/
def waitFor (i : ℕ) : List ℕ → List ℕ → List ℕ × List ℕ × List ℕ
  | pending, completed =>
    if i ∈ completed then (pending, completed, [])
    else
      match pending with
      | [] => ([], i :: completed, [])
      | j :: rest =>
        let r := waitFor i rest (j :: completed)
        (r.1, r.2.1, j :: r.2.2)

/-- The while loop of run_export.  The FIFO deque reqs holds the slice
indices of the in-flight requests, oldest first; s is the Python
variable slice_index (after the fill loop it names the last issued
index).  Each iteration emits progress 100*s/N, pops the head request,
waits on it, increments s, issues a request for the new s when s < N,
and appends the fetched buffer as a page; an error raised while
waiting aborts the loop.  fuel bounds the number of iterations; the
caller passes N, which the invariant proofs show is never exhausted. -/
def drain (N : ℕ) (fetch : ℕ → Except E D) :
    ℕ → List ℕ → ℕ → List ℕ → List ℕ → List (Event D) × Except E Unit
  | _, [], _, _, _ => ([], Except.ok ())
  | 0, _ :: _, _, _, _ => ([], Except.ok ())
  | fuel + 1, i :: rest, s, pend, compl =>
    let pe : Event D := Event.progress (100 * s / N)
    let w := waitFor i pend compl
    let compEvs : List (Event D) := w.2.2.map Event.complete
    match fetch i with
    | Except.error e => (pe :: Event.consume i :: compEvs, Except.error e)
    | Except.ok d =>
      let s' := s + 1
      let pushed : List ℕ := if s' < N then [s'] else []
      let r := drain N fetch fuel (rest ++ pushed) s' w.1 w.2.1
      (pe :: Event.consume i ::
        (compEvs ++ pushed.map Event.issue ++ Event.page i d :: r.1), r.2)

/-- run_export, given the step-axis extent N, the computed window size
W (parallel_requests), the source, whether a file already exists at
the output path, and the completion schedule of the concurrently
running fetches.  Deletes any pre-existing file, issues the initial
batch of min(W, N) requests, emits progress 0, drains the window, and
on success emits progress 100.  Returns the event trace and the
outcome. -/
def run_export (N W : ℕ) (fetch : ℕ → Except E D) (preexisting : Bool)
    (sched : List ℕ) : List (Event D) × Except E Unit :=
  let delEvs : List (Event D) := if preexisting then [Event.delete] else []
  let Wc := min W N
  let d := drain N fetch N (List.range Wc) (Wc - 1) sched []
  (delEvs ++ (List.range Wc).map Event.issue ++ Event.progress 0 :: d.1 ++
    (match d.2 with
     | Except.ok _ => [Event.progress 100]
     | Except.error _ => []), d.2)

/-- The pages appended to the output file, oldest first, each tagged
with its slice index. -/
def pagesOf (tr : List (Event D)) : List (ℕ × D) :=
  tr.filterMap fun e => match e with
    | Event.page i d => some (i, d)
    | _ => none

/-- The values emitted on the progress signal, in emission order. -/
def progressLog (tr : List (Event D)) : List ℕ :=
  tr.filterMap fun e => match e with
    | Event.progress p => some p
    | _ => none

/-- The slice indices whose fetches were issued, in issue order. -/
def issuesOf (tr : List (Event D)) : List ℕ :=
  tr.filterMap fun e => match e with
    | Event.issue i => some i
    | _ => none

/-- The slice indices popped from the head of the window, in pop order. -/
def consumesOf (tr : List (Event D)) : List ℕ :=
  tr.filterMap fun e => match e with
    | Event.consume i => some i
    | _ => none

/-- Pairs (p, i) where p is the progress value emitted immediately
before the request of slice index i was popped: the emission at the
start of the drain iteration that consumes i. -/
def pcPairs : Option ℕ → List (Event D) → List (ℕ × ℕ)
  | _, [] => []
  | _, Event.progress p :: rest => pcPairs (some p) rest
  | some p, Event.consume i :: rest => (p, i) :: pcPairs none rest
  | none, Event.consume _ :: rest => pcPairs none rest
  | lp, _ :: rest => pcPairs lp rest

/-- DEFAULT_BATCH_SIZE of OpExportMultipageTiff. -/
def DEFAULT_BATCH_SIZE : ℕ := 4

/-- Python int() on a rational: truncation toward zero. -/
def pyInt (q : ℚ) : ℤ := if 0 ≤ q then ⌊q⌋ else -⌊-q⌋

/-- Extent of axis a in a tagged shape (ordered association list from
axis label to extent); 0 when the axis is absent (unreachable in the
source, which only looks up present keys). -/
def lookupExtent (ts : List (Char × ℕ)) (a : Char) : ℕ :=
  match ts.find? fun kv => kv.1 = a with
  | some kv => kv.2
  | none => 0

/-- Membership test for an axis label in a tagged shape. -/
def hasAxis (ts : List (Char × ℕ)) (a : Char) : Bool :=
  (ts.find? fun kv => kv.1 = a).isSome

/-- pixels_per_slice of run_export: the product of the slice-shape
extents, floor-divided by the channel extent of the tagged slice
shape when a channel axis exists. -/
def pixelsPerSlice (tagged_sliceshape : List (Char × ℕ)) : ℕ :=
  let slice_shape := tagged_sliceshape.map Prod.snd
  if hasAxis tagged_sliceshape 'c' then
    slice_shape.prod / lookupExtent tagged_sliceshape 'c'
  else slice_shape.prod

/-- parallel_requests of run_export: DEFAULT_BATCH_SIZE when the
per-pixel ram-usage hint is absent; otherwise available ram is
multiplied by 0.5 and divided by pixels_per_slice times the hint,
truncated to an integer with int(). -/
def parallelRequests (hint : Option ℚ) (availableRam : ℕ)
    (tagged_sliceshape : List (Char × ℕ)) : ℕ :=
  match hint with
  | none => DEFAULT_BATCH_SIZE
  | some cost =>
    let ram_usage_per_slice : ℚ := (pixelsPerSlice tagged_sliceshape : ℚ) * cost
    let available_ram : ℚ := (availableRam : ℚ) * (1 / 2 : ℚ)
    (pyInt (available_ram / ram_usage_per_slice)).toNat

/-- get_nonsingleton_axes_for_tagged_shape: filters the tagged shape
to the items with extent greater than 1 and takes the axis labels as
the first row of zip(*filtered_items).  In Python 2, when the
filtered list is empty, zip() returns the empty list and the [0]
lookup raises IndexError: that failure is modelled as none.  For a
non-empty filtered list, zip(*items)[0] is the tuple of keys in
original order. -/
def get_nonsingleton_axes_for_tagged_shape (tagged_shape : List (Char × ℕ)) :
    Option (List Char) :=
  let filtered_items := tagged_shape.filter fun kv => 1 < kv.2
  match filtered_items with
  | [] => none
  | _ => some (filtered_items.map Prod.fst)

/-- The assert condition of setupOutputs over the computed volume
axes: exactly 3 non-singleton axes, or exactly 4 with a channel axis
among the last 3. -/
def setupValid (volume_axes : List Char) : Bool :=
  volume_axes.length == 3 ||
    (volume_axes.length == 4 && (volume_axes.drop 1).contains 'c')

/-- Outcome of a whole export: listing the non-singleton axes can
raise IndexError (every axis singleton), the setup assert can fail,
or the source can raise while a slice is awaited. -/
inductive ExportError (E : Type) where
  | indexError : ExportError E
  | invalidShape : ExportError E
  | source : E → ExportError E
  deriving DecidableEq

/-- setupOutputs: lists the non-singleton axes — propagating the
IndexError raised inside get_nonsingleton_axes_for_tagged_shape on an
all-singleton shape, before the shape assert is reached — then applies
the assert, yielding the volume axes on success. -/
def setupOutputs (ts : List (Char × ℕ)) : Except (ExportError E) (List Char) :=
  match get_nonsingleton_axes_for_tagged_shape ts with
  | none => Except.error ExportError.indexError
  | some va =>
    if setupValid va then Except.ok va else Except.error ExportError.invalidShape

/-- The whole operator: setupOutputs (axis classification) followed by
run_export.  The step axis is the first non-singleton axis, N its
extent; the tagged slice shape is the tagged shape with the step
extent replaced by 1; the window size is parallel_requests computed
from the ram-usage hint and available ram.  When setupOutputs fails —
with IndexError or with the failed assert — no fetch is issued. -/
def opExport (ts : List (Char × ℕ)) (hint : Option ℚ) (availableRam : ℕ)
    (fetch : ℕ → Except E D) (preexisting : Bool) (sched : List ℕ) :
    List (Event D) × Except (ExportError E) Unit :=
  match (setupOutputs ts : Except (ExportError E) (List Char)) with
  | Except.error err => ([], Except.error err)
  | Except.ok va =>
    let step := va.headD 'z'
    let N := lookupExtent ts step
    let tss := ts.map fun kv => if kv.1 = step then (kv.1, 1) else kv
    let W := parallelRequests hint availableRam tss
    let r := run_export N W fetch preexisting sched
    (r.1, r.2.mapError ExportError.source)

/-- Modelled from the spec: the Admission Sizer formula in the spec's
own words (section 4.2) — pixels-per-slice is the product of the
slice-shape extents divided (exactly, as rationals) by the channel
extent when a channel axis exists; the window size is half the
reported available memory divided by pixels-per-slice times the
per-pixel cost, floored to an integer.  Used to compare the source's
parallel_requests against the spec's description. -/
def sizeSpec (cost : ℚ) (availableRam : ℕ) (sliceExtents : List ℕ)
    (channelExtent : Option ℕ) : ℤ :=
  let pps : ℚ := (sliceExtents.prod : ℚ) / ((channelExtent.getD 1 : ℕ) : ℚ)
  ⌊((availableRam : ℚ) / 2) / (pps * cost)⌋

/-! Projection lemmas: how each observer acts on single events, on
concatenation, and on the completion and issue blocks. -/

@[simp] theorem pagesOf_nil : pagesOf ([] : List (Event D)) = [] := rfl

@[simp] theorem pagesOf_append (a b : List (Event D)) :
    pagesOf (a ++ b) = pagesOf a ++ pagesOf b := List.filterMap_append a b _

@[simp] theorem pagesOf_delete (tr : List (Event D)) :
    pagesOf (Event.delete :: tr) = pagesOf tr := rfl

@[simp] theorem pagesOf_issue (i : ℕ) (tr : List (Event D)) :
    pagesOf (Event.issue i :: tr) = pagesOf tr := rfl

@[simp] theorem pagesOf_complete (i : ℕ) (tr : List (Event D)) :
    pagesOf (Event.complete i :: tr) = pagesOf tr := rfl

@[simp] theorem pagesOf_progress (p : ℕ) (tr : List (Event D)) :
    pagesOf (Event.progress p :: tr) = pagesOf tr := rfl

@[simp] theorem pagesOf_consume (i : ℕ) (tr : List (Event D)) :
    pagesOf (Event.consume i :: tr) = pagesOf tr := rfl

@[simp] theorem pagesOf_page (i : ℕ) (d : D) (tr : List (Event D)) :
    pagesOf (Event.page i d :: tr) = (i, d) :: pagesOf tr := rfl

@[simp] theorem progressLog_nil : progressLog ([] : List (Event D)) = [] := rfl

@[simp] theorem progressLog_append (a b : List (Event D)) :
    progressLog (a ++ b) = progressLog a ++ progressLog b := List.filterMap_append a b _

@[simp] theorem progressLog_delete (tr : List (Event D)) :
    progressLog (Event.delete :: tr) = progressLog tr := rfl

@[simp] theorem progressLog_issue (i : ℕ) (tr : List (Event D)) :
    progressLog (Event.issue i :: tr) = progressLog tr := rfl

@[simp] theorem progressLog_complete (i : ℕ) (tr : List (Event D)) :
    progressLog (Event.complete i :: tr) = progressLog tr := rfl

@[simp] theorem progressLog_progress (p : ℕ) (tr : List (Event D)) :
    progressLog (Event.progress p :: tr) = p :: progressLog tr := rfl

@[simp] theorem progressLog_consume (i : ℕ) (tr : List (Event D)) :
    progressLog (Event.consume i :: tr) = progressLog tr := rfl

@[simp] theorem progressLog_page (i : ℕ) (d : D) (tr : List (Event D)) :
    progressLog (Event.page i d :: tr) = progressLog tr := rfl

@[simp] theorem issuesOf_nil : issuesOf ([] : List (Event D)) = [] := rfl

@[simp] theorem issuesOf_append (a b : List (Event D)) :
    issuesOf (a ++ b) = issuesOf a ++ issuesOf b := List.filterMap_append a b _

@[simp] theorem issuesOf_delete (tr : List (Event D)) :
    issuesOf (Event.delete :: tr) = issuesOf tr := rfl

@[simp] theorem issuesOf_issue (i : ℕ) (tr : List (Event D)) :
    issuesOf (Event.issue i :: tr) = i :: issuesOf tr := rfl

@[simp] theorem issuesOf_complete (i : ℕ) (tr : List (Event D)) :
    issuesOf (Event.complete i :: tr) = issuesOf tr := rfl

@[simp] theorem issuesOf_progress (p : ℕ) (tr : List (Event D)) :
    issuesOf (Event.progress p :: tr) = issuesOf tr := rfl

@[simp] theorem issuesOf_consume (i : ℕ) (tr : List (Event D)) :
    issuesOf (Event.consume i :: tr) = issuesOf tr := rfl

@[simp] theorem issuesOf_page (i : ℕ) (d : D) (tr : List (Event D)) :
    issuesOf (Event.page i d :: tr) = issuesOf tr := rfl

@[simp] theorem consumesOf_nil : consumesOf ([] : List (Event D)) = [] := rfl

@[simp] theorem consumesOf_append (a b : List (Event D)) :
    consumesOf (a ++ b) = consumesOf a ++ consumesOf b := List.filterMap_append a b _

@[simp] theorem consumesOf_delete (tr : List (Event D)) :
    consumesOf (Event.delete :: tr) = consumesOf tr := rfl

@[simp] theorem consumesOf_issue (i : ℕ) (tr : List (Event D)) :
    consumesOf (Event.issue i :: tr) = consumesOf tr := rfl

@[simp] theorem consumesOf_complete (i : ℕ) (tr : List (Event D)) :
    consumesOf (Event.complete i :: tr) = consumesOf tr := rfl

@[simp] theorem consumesOf_progress (p : ℕ) (tr : List (Event D)) :
    consumesOf (Event.progress p :: tr) = consumesOf tr := rfl

@[simp] theorem consumesOf_consume (i : ℕ) (tr : List (Event D)) :
    consumesOf (Event.consume i :: tr) = i :: consumesOf tr := rfl

@[simp] theorem consumesOf_page (i : ℕ) (d : D) (tr : List (Event D)) :
    consumesOf (Event.page i d :: tr) = consumesOf tr := rfl

@[simp] theorem pagesOf_map_complete (l : List ℕ) :
    pagesOf (l.map (Event.complete : ℕ → Event D)) = [] := by
  induction l <;> simp_all

@[simp] theorem progressLog_map_complete (l : List ℕ) :
    progressLog (l.map (Event.complete : ℕ → Event D)) = [] := by
  induction l <;> simp_all

@[simp] theorem issuesOf_map_complete (l : List ℕ) :
    issuesOf (l.map (Event.complete : ℕ → Event D)) = [] := by
  induction l <;> simp_all

@[simp] theorem consumesOf_map_complete (l : List ℕ) :
    consumesOf (l.map (Event.complete : ℕ → Event D)) = [] := by
  induction l <;> simp_all

@[simp] theorem pagesOf_map_issue (l : List ℕ) :
    pagesOf (l.map (Event.issue : ℕ → Event D)) = [] := by
  induction l <;> simp_all

@[simp] theorem progressLog_map_issue (l : List ℕ) :
    progressLog (l.map (Event.issue : ℕ → Event D)) = [] := by
  induction l <;> simp_all

@[simp] theorem issuesOf_map_issue (l : List ℕ) :
    issuesOf (l.map (Event.issue : ℕ → Event D)) = l := by
  induction l <;> simp_all

@[simp] theorem consumesOf_map_issue (l : List ℕ) :
    consumesOf (l.map (Event.issue : ℕ → Event D)) = [] := by
  induction l <;> simp_all

@[simp] theorem pcPairs_nil (lp : Option ℕ) : pcPairs lp ([] : List (Event D)) = [] := by cases lp <;> rfl

@[simp] theorem pcPairs_delete (lp : Option ℕ) (tr : List (Event D)) :
    pcPairs lp (Event.delete :: tr) = pcPairs lp tr := by cases lp <;> rfl

@[simp] theorem pcPairs_issue (lp : Option ℕ) (i : ℕ) (tr : List (Event D)) :
    pcPairs lp (Event.issue i :: tr) = pcPairs lp tr := by cases lp <;> rfl

@[simp] theorem pcPairs_complete (lp : Option ℕ) (i : ℕ) (tr : List (Event D)) :
    pcPairs lp (Event.complete i :: tr) = pcPairs lp tr := by cases lp <;> rfl

@[simp] theorem pcPairs_page (lp : Option ℕ) (i : ℕ) (d : D) (tr : List (Event D)) :
    pcPairs lp (Event.page i d :: tr) = pcPairs lp tr := by cases lp <;> rfl

@[simp] theorem pcPairs_progress (lp : Option ℕ) (p : ℕ) (tr : List (Event D)) :
    pcPairs lp (Event.progress p :: tr) = pcPairs (some p) tr := by cases lp <;> rfl

@[simp] theorem pcPairs_consume_some (p i : ℕ) (tr : List (Event D)) :
    pcPairs (some p) (Event.consume i :: tr) = (p, i) :: pcPairs none tr := rfl

@[simp] theorem pcPairs_consume_none (i : ℕ) (tr : List (Event D)) :
    pcPairs none (Event.consume i :: tr) = pcPairs none tr := rfl

@[simp] theorem pcPairs_map_complete (lp : Option ℕ) (l : List ℕ) (tr : List (Event D)) :
    pcPairs lp (l.map Event.complete ++ tr) = pcPairs lp tr := by
  induction l generalizing lp <;> simp_all

@[simp] theorem pcPairs_map_issue (lp : Option ℕ) (l : List ℕ) (tr : List (Event D)) :
    pcPairs lp (l.map Event.issue ++ tr) = pcPairs lp tr := by
  induction l generalizing lp <;> simp_all

@[simp] theorem pcPairs_delete_if (lp : Option ℕ) (b : Bool) (r : List (Event D)) :
    pcPairs lp ((if b then [Event.delete] else []) ++ r) = pcPairs lp r := by
  cases b <;> cases lp <;> rfl

/-! The drain-loop invariant.  The queue law relating the FIFO content
to the Python slice_index variable s is: the queue holds exactly the
indices c, c+1, ..., c+k-1 where c is the next index to be consumed
and c + k = min (s+1) N; k only reaches 0 once s+1 has passed N. -/

/-- One successful drain iteration, unfolded. -/
theorem drain_cons_ok (N : ℕ) (fetch : ℕ → Except E D) (fuel c s : ℕ)
    (rest pend compl : List ℕ) (d : D) (hfetch : fetch c = Except.ok d) :
    drain N fetch (fuel + 1) (c :: rest) s pend compl =
      (Event.progress (100 * s / N) :: Event.consume c ::
        ((waitFor c pend compl).2.2.map Event.complete ++
          (if s + 1 < N then [s + 1] else []).map Event.issue ++
          Event.page c d ::
            (drain N fetch fuel (rest ++ if s + 1 < N then [s + 1] else [])
              (s + 1) (waitFor c pend compl).1 (waitFor c pend compl).2.1).1),
       (drain N fetch fuel (rest ++ if s + 1 < N then [s + 1] else [])
          (s + 1) (waitFor c pend compl).1 (waitFor c pend compl).2.1).2) := by
  simp only [drain, hfetch]

/-- One failing drain iteration, unfolded: the error of the awaited
request propagates and the loop stops. -/
theorem drain_cons_err (N : ℕ) (fetch : ℕ → Except E D) (fuel c s : ℕ)
    (rest pend compl : List ℕ) (e : E) (hfetch : fetch c = Except.error e) :
    drain N fetch (fuel + 1) (c :: rest) s pend compl =
      (Event.progress (100 * s / N) :: Event.consume c ::
        (waitFor c pend compl).2.2.map Event.complete,
       Except.error e) := by
  simp only [drain, hfetch]

/-- On an all-successful source, draining from queue c..c+k-1 consumes
c..N-1 in increasing order, appends exactly their pages in increasing
index order, emits 100*s/N, 100*(s+1)/N, ..., and returns ok — for
every completion schedule. -/
theorem drain_ok (N : ℕ) (fetch : ℕ → Except E D) (data : ℕ → D)
    (hall : ∀ i, i < N → fetch i = Except.ok (data i)) :
    ∀ fuel c k s pend compl,
      N ≤ c + fuel →
      c + k = min (s + 1) N →
      (k = 0 → N ≤ s + 1) →
      (drain N fetch fuel (List.range' c k) s pend compl).2 = Except.ok () ∧
      pagesOf (drain N fetch fuel (List.range' c k) s pend compl).1
        = (List.range' c (N - c)).map (fun i => (i, data i)) ∧
      progressLog (drain N fetch fuel (List.range' c k) s pend compl).1
        = (List.range' s (N - c)).map (fun t => 100 * t / N) ∧
      consumesOf (drain N fetch fuel (List.range' c k) s pend compl).1
        = List.range' c (N - c) := by
  intro fuel
  induction fuel with
  | zero =>
    intro c k s pend compl hfuel hinv hk0
    have hm : min (s + 1) N ≤ N := Nat.min_le_right _ _
    have hk : k = 0 := by omega
    subst hk
    have hNc : N - c = 0 := by omega
    simp [drain, hNc]
  | succ fuel ih =>
    intro c k s pend compl hfuel hinv hk0
    have hm : min (s + 1) N ≤ N := Nat.min_le_right _ _
    cases k with
    | zero =>
      have hNc : N - c = 0 := by omega
      simp [drain, hNc]
    | succ k =>
      have hc : c < N := by omega
      have hNc : N - c = (N - (c + 1)) + 1 := by omega
      rw [List.range'_succ, drain_cons_ok N fetch fuel c s _ pend compl (data c) (hall c hc)]
      by_cases hs : s + 1 < N
      · -- a fresh request for index s+1 is pushed; the queue keeps its length
        have hpush : s + 1 = c + 1 + k := by omega
        have hq : List.range' (c + 1) k ++ [s + 1] = List.range' (c + 1) (k + 1) := by
          rw [hpush, show [c + 1 + k] = List.range' (c + 1 + k) 1 from rfl,
            List.range'_append_1, Nat.add_comm 1 k]
        rw [if_pos hs, hq]
        have hrec := ih (c + 1) (k + 1) (s + 1) (waitFor c pend compl).1
          (waitFor c pend compl).2.1 (by omega) (by omega) (by omega)
        refine ⟨hrec.1, ?_, ?_, ?_⟩
        · simp only [pagesOf_progress, pagesOf_consume, pagesOf_append,
            pagesOf_map_complete, pagesOf_map_issue, pagesOf_page, List.nil_append,
            hrec.2.1]
          conv_rhs => rw [hNc, List.range'_succ]
          simp
        · simp only [progressLog_progress, progressLog_consume, progressLog_append,
            progressLog_map_complete, progressLog_map_issue, List.nil_append,
            progressLog_page, hrec.2.2.1]
          conv_rhs => rw [hNc, List.range'_succ]
          simp
        · simp only [consumesOf_progress, consumesOf_consume, consumesOf_append,
            consumesOf_map_complete, consumesOf_map_issue, consumesOf_page,
            List.nil_append, hrec.2.2.2]
          conv_rhs => rw [hNc, List.range'_succ]
      · -- s+1 has reached N: nothing is pushed and the queue shrinks
        rw [if_neg hs]
        have hrec := ih (c + 1) k (s + 1) (waitFor c pend compl).1
          (waitFor c pend compl).2.1 (by omega) (by omega) (by omega)
        simp only [List.map_nil, List.append_nil]
        refine ⟨hrec.1, ?_, ?_, ?_⟩
        · simp only [pagesOf_progress, pagesOf_consume, pagesOf_append,
            pagesOf_map_complete, pagesOf_page, List.nil_append, hrec.2.1]
          conv_rhs => rw [hNc, List.range'_succ]
          simp
        · simp only [progressLog_progress, progressLog_consume, progressLog_append,
            progressLog_map_complete, List.nil_append,
            progressLog_page, hrec.2.2.1]
          conv_rhs => rw [hNc, List.range'_succ]
          simp
        · simp only [consumesOf_progress, consumesOf_consume, consumesOf_append,
            consumesOf_map_complete, consumesOf_page, List.nil_append, hrec.2.2.2]
          conv_rhs => rw [hNc, List.range'_succ]

/-- An empty window ends the loop at once, whatever the fuel. -/
theorem drain_nil (N : ℕ) (fetch : ℕ → Except E D) (fuel s : ℕ) (pend compl : List ℕ) :
    drain N fetch fuel [] s pend compl = ([], Except.ok ()) := by
  cases fuel <;> rfl

/-- Draining when the source fails at index K while every smaller
index succeeds: the pages for c..K-1 are appended in increasing order,
then the error raised by the request of index K propagates; no page
with index K or larger is ever written and nothing is rolled back. -/
theorem drain_fail (N K : ℕ) (fetch : ℕ → Except E D) (data : ℕ → D) (err : E)
    (hbelow : ∀ i, i < K → fetch i = Except.ok (data i))
    (hK : fetch K = Except.error err) (hKN : K < N) :
    ∀ fuel c k s pend compl,
      N ≤ c + fuel →
      c + k = min (s + 1) N →
      (k = 0 → N ≤ s + 1) →
      c ≤ K →
      (drain N fetch fuel (List.range' c k) s pend compl).2 = Except.error err ∧
      pagesOf (drain N fetch fuel (List.range' c k) s pend compl).1
        = (List.range' c (K - c)).map (fun i => (i, data i)) := by
  intro fuel
  induction fuel with
  | zero =>
    intro c k s pend compl hfuel hinv hk0 hcK
    exfalso
    omega
  | succ fuel ih =>
    intro c k s pend compl hfuel hinv hk0 hcK
    have hm : min (s + 1) N ≤ N := Nat.min_le_right _ _
    cases k with
    | zero =>
      exfalso
      omega
    | succ k =>
      have hc : c < N := by omega
      rw [List.range'_succ]
      rcases Nat.lt_or_ge c K with hlt | hge
      · -- c < K: this iteration succeeds
        have hKc : K - c = (K - (c + 1)) + 1 := by omega
        rw [drain_cons_ok N fetch fuel c s _ pend compl (data c) (hbelow c hlt)]
        by_cases hs : s + 1 < N
        · have hq : List.range' (c + 1) k ++ [s + 1] = List.range' (c + 1) (k + 1) := by
            have hpush : s + 1 = c + 1 + k := by omega
            rw [hpush, show [c + 1 + k] = List.range' (c + 1 + k) 1 from rfl,
              List.range'_append_1, Nat.add_comm 1 k]
          rw [if_pos hs, hq]
          have hrec := ih (c + 1) (k + 1) (s + 1) (waitFor c pend compl).1
            (waitFor c pend compl).2.1 (by omega) (by omega) (by omega) (by omega)
          refine ⟨hrec.1, ?_⟩
          simp only [pagesOf_progress, pagesOf_consume, pagesOf_append,
            pagesOf_map_complete, pagesOf_map_issue, pagesOf_page, List.nil_append,
            hrec.2]
          conv_rhs => rw [hKc, List.range'_succ]
          simp
        · rw [if_neg hs]
          have hrec := ih (c + 1) k (s + 1) (waitFor c pend compl).1
            (waitFor c pend compl).2.1 (by omega) (by omega) (by omega) (by omega)
          simp only [List.map_nil, List.append_nil]
          refine ⟨hrec.1, ?_⟩
          simp only [pagesOf_progress, pagesOf_consume, pagesOf_append,
            pagesOf_map_complete, pagesOf_page, List.nil_append, hrec.2]
          conv_rhs => rw [hKc, List.range'_succ]
          simp
      · -- c = K: this iteration pops the failing request and aborts
        have hceq : c = K := by omega
        subst hceq
        rw [drain_cons_err N fetch fuel c s _ pend compl err hK]
        refine ⟨rfl, ?_⟩
        simp [Nat.sub_self]

/-! Counting helpers for the backpressure bound: sublists of the
completion and issue blocks contribute no consumes, and at most the
block length of issues. -/

theorem issuesOf_eq_nil_of_sublist_complete {u : List (Event D)} {l : List ℕ}
    (h : List.Sublist u (l.map Event.complete)) : issuesOf u = [] := by
  have h1 : List.Sublist (issuesOf u) (issuesOf (l.map (Event.complete : ℕ → Event D))) :=
    h.filterMap _
  rw [issuesOf_map_complete] at h1
  exact List.sublist_nil.mp h1

theorem consumesOf_eq_nil_of_sublist_complete {u : List (Event D)} {l : List ℕ}
    (h : List.Sublist u (l.map Event.complete)) : consumesOf u = [] := by
  have h1 : List.Sublist (consumesOf u) (consumesOf (l.map (Event.complete : ℕ → Event D))) :=
    h.filterMap _
  rw [consumesOf_map_complete] at h1
  exact List.sublist_nil.mp h1

theorem consumesOf_eq_nil_of_sublist_issue {u : List (Event D)} {l : List ℕ}
    (h : List.Sublist u (l.map Event.issue)) : consumesOf u = [] := by
  have h1 : List.Sublist (consumesOf u) (consumesOf (l.map (Event.issue : ℕ → Event D))) :=
    h.filterMap _
  rw [consumesOf_map_issue] at h1
  exact List.sublist_nil.mp h1

theorem issuesOf_length_le_of_sublist_issue {u : List (Event D)} {l : List ℕ}
    (h : List.Sublist u (l.map Event.issue)) : (issuesOf u).length ≤ l.length := by
  have h1 : List.Sublist (issuesOf u) (issuesOf (l.map (Event.issue : ℕ → Event D))) :=
    h.filterMap _
  rw [issuesOf_map_issue] at h1
  exact h1.length_le

/-- Splitting a prefix of a concatenation. -/
theorem prefix_append_split {α : Type} {p a b : List α} (h : p <+: a ++ b) :
    p <+: a ∨ ∃ q, p = a ++ q ∧ q <+: b := by
  induction a generalizing p with
  | nil =>
    exact Or.inr ⟨p, rfl, by simpa using h⟩
  | cons x xs ih =>
    rcases List.prefix_cons_iff.mp h with h0 | ⟨t, rfl, ht⟩
    · subst h0
      exact Or.inl List.nil_prefix
    · rcases ih ht with h1 | ⟨q, rfl, hq⟩
      · exact Or.inl (List.cons_prefix_cons.mpr ⟨rfl, h1⟩)
      · exact Or.inr ⟨q, rfl, hq⟩

/-- The backpressure invariant of the drain loop: along every prefix
of its event trace, the window size (requests issued and not yet
popped, starting from a window of reqs.length) never exceeds the bound
B that the window respected on entry — each iteration pops before it
pushes. -/
theorem drain_outstanding (N : ℕ) (fetch : ℕ → Except E D) (B : ℕ) :
    ∀ fuel reqs s pend compl,
      reqs.length ≤ B →
      ∀ p, p <+: (drain N fetch fuel reqs s pend compl).1 →
        reqs.length + (issuesOf p).length ≤ B + (consumesOf p).length := by
  intro fuel
  induction fuel with
  | zero =>
    intro reqs s pend compl hlen p hp
    have htr : (drain N fetch 0 reqs s pend compl).1 = [] := by
      cases reqs <;> rfl
    rw [htr] at hp
    have hp0 : p = [] := List.sublist_nil.mp hp.sublist
    subst hp0
    simpa using hlen
  | succ fuel ih =>
    intro reqs s pend compl hlen p hp
    cases reqs with
    | nil =>
      have hp0 : p = [] := by
        have htr : (drain N fetch (fuel + 1) ([] : List ℕ) s pend compl).1 = [] := rfl
        rw [htr] at hp
        exact List.sublist_nil.mp hp.sublist
      subst hp0
      simp
    | cons i rest =>
      cases hfetch : fetch i with
      | error e =>
        rw [drain_cons_err N fetch fuel i s rest pend compl e hfetch] at hp
        rcases List.prefix_cons_iff.mp hp with h0 | ⟨t, rfl, ht⟩
        · subst h0
          simpa using hlen
        rcases List.prefix_cons_iff.mp ht with h0 | ⟨u, rfl, hu⟩
        · subst h0
          simp only [issuesOf_progress, issuesOf_nil, consumesOf_progress, consumesOf_nil]
          simp only [List.length_cons, List.length_nil] at *
          omega
        have hiu : issuesOf u = [] := issuesOf_eq_nil_of_sublist_complete hu.sublist
        simp only [issuesOf_progress, issuesOf_consume, consumesOf_progress,
          consumesOf_consume, hiu, List.length_nil, List.length_cons] at *
        omega
      | ok d =>
        rw [drain_cons_ok N fetch fuel i s rest pend compl d hfetch] at hp
        rcases List.prefix_cons_iff.mp hp with h0 | ⟨t, rfl, ht⟩
        · subst h0
          simpa using hlen
        rcases List.prefix_cons_iff.mp ht with h0 | ⟨u, rfl, hu⟩
        · subst h0
          simp only [issuesOf_progress, issuesOf_nil, consumesOf_progress, consumesOf_nil]
          simp only [List.length_cons, List.length_nil] at *
          omega
        -- u is a prefix of completions ++ issues ++ page :: recursive trace
        rcases prefix_append_split hu with h1 | ⟨v, rfl, hv⟩
        · -- inside the completion and issue blocks
          rcases prefix_append_split h1 with h2 | ⟨w, rfl, hw⟩
          · have hiu : issuesOf u = [] := issuesOf_eq_nil_of_sublist_complete h2.sublist
            simp only [issuesOf_progress, issuesOf_consume, consumesOf_progress,
              consumesOf_consume, hiu, List.length_nil, List.length_cons] at *
            omega
          · have hiw : (issuesOf w).length ≤ (if s + 1 < N then [s + 1] else []).length :=
              issuesOf_length_le_of_sublist_issue hw.sublist
            have hpl : (if s + 1 < N then [s + 1] else ([] : List ℕ)).length ≤ 1 := by
              split <;> simp
            simp only [issuesOf_progress, issuesOf_consume, issuesOf_append,
              issuesOf_map_complete,
              consumesOf_progress, consumesOf_consume, consumesOf_append,
              consumesOf_map_complete,
              consumesOf_eq_nil_of_sublist_issue hw.sublist,
              List.nil_append, List.length_nil, List.length_append,
              List.length_cons] at *
            omega
        · -- past both blocks: at the page event or inside the recursion
          rcases List.prefix_cons_iff.mp hv with h0 | ⟨x, rfl, hx⟩
          · subst h0
            have hpl : (if s + 1 < N then [s + 1] else ([] : List ℕ)).length ≤ 1 := by
              split <;> simp
            simp only [issuesOf_progress, issuesOf_consume, issuesOf_append,
              List.append_nil, consumesOf_progress, consumesOf_consume,
              consumesOf_append, consumesOf_map_complete, consumesOf_map_issue,
              issuesOf_map_complete, issuesOf_map_issue, List.nil_append,
              List.length_cons, List.length_nil] at *
            omega
          · have hrec := ih (rest ++ if s + 1 < N then [s + 1] else []) (s + 1)
              (waitFor i pend compl).1 (waitFor i pend compl).2.1
              (by
                have hpl : (if s + 1 < N then [s + 1] else ([] : List ℕ)).length ≤ 1 := by
                  split <;> simp
                simp only [List.length_append]
                simp only [List.length_cons] at hlen
                omega) x hx
            have hpl : (if s + 1 < N then [s + 1] else ([] : List ℕ)).length ≤ 1 := by
              split <;> simp
            simp only [issuesOf_progress, issuesOf_consume, issuesOf_append,
              issuesOf_map_complete, issuesOf_map_issue, issuesOf_page,
              consumesOf_progress, consumesOf_consume, consumesOf_append,
              consumesOf_map_complete, consumesOf_map_issue, consumesOf_page,
              List.nil_append, List.length_cons, List.length_append,
              List.length_nil] at *
            omega

/-- Over a successful drain, each iteration couples its progress
emission with the slice index it pops: the (emission, index) pairs are
(100*s/N, c), (100*(s+1)/N, c+1), and so on, one per iteration. -/
theorem drain_pairs (N : ℕ) (fetch : ℕ → Except E D) (data : ℕ → D)
    (hall : ∀ i, i < N → fetch i = Except.ok (data i)) :
    ∀ fuel c k s pend compl (lp : Option ℕ) (b : List (Event D)),
      N ≤ c + fuel →
      c + k = min (s + 1) N →
      0 < k →
      pcPairs lp ((drain N fetch fuel (List.range' c k) s pend compl).1 ++ b)
        = List.zip ((List.range' s (N - c)).map fun t => 100 * t / N)
            (List.range' c (N - c)) ++ pcPairs none b := by
  intro fuel
  induction fuel with
  | zero =>
    intro c k s pend compl lp b hfuel hinv hk
    have hm : min (s + 1) N ≤ N := Nat.min_le_right _ _
    exfalso
    omega
  | succ fuel ih =>
    intro c k s pend compl lp b hfuel hinv hk
    have hm : min (s + 1) N ≤ N := Nat.min_le_right _ _
    cases k with
    | zero => exact absurd hk (by omega)
    | succ k =>
      have hc : c < N := by omega
      have hNc : N - c = (N - (c + 1)) + 1 := by omega
      rw [List.range'_succ, drain_cons_ok N fetch fuel c s _ pend compl (data c) (hall c hc)]
      by_cases hs : s + 1 < N
      · have hq : List.range' (c + 1) k ++ [s + 1] = List.range' (c + 1) (k + 1) := by
          have hpush : s + 1 = c + 1 + k := by omega
          rw [hpush, show [c + 1 + k] = List.range' (c + 1 + k) 1 from rfl,
            List.range'_append_1, Nat.add_comm 1 k]
        rw [if_pos hs, hq]
        simp only [List.cons_append, List.append_assoc, pcPairs_progress,
          pcPairs_consume_some, pcPairs_map_complete, pcPairs_map_issue,
          pcPairs_page]
        rw [ih (c + 1) (k + 1) (s + 1) (waitFor c pend compl).1
          (waitFor c pend compl).2.1 none b (by omega) (by omega) (by omega)]
        conv_rhs => rw [hNc, List.range'_succ, List.range'_succ]
        simp
      · rw [if_neg hs]
        simp only [List.map_nil, List.append_nil, List.cons_append,
          List.append_assoc, pcPairs_progress, pcPairs_consume_some,
          pcPairs_map_complete, pcPairs_page]
        cases k with
        | zero =>
          have hN1 : N - c = 1 := by omega
          have h0 : List.range' (c + 1) 0 = [] := rfl
          rw [h0, drain_nil]
          simp [hN1, List.range'_succ]
        | succ k =>
          rw [ih (c + 1) (k + 1) (s + 1) (waitFor c pend compl).1
            (waitFor c pend compl).2.1 none b (by omega) (by omega) (by omega)]
          conv_rhs => rw [hNc, List.range'_succ, List.range'_succ]
          simp

/-- run_export unfolded: deletion, fill issues, progress 0, the drain
trace, and the final progress 100 on success. -/
theorem run_export_def (N W : ℕ) (fetch : ℕ → Except E D) (preexisting : Bool)
    (sched : List ℕ) :
    run_export N W fetch preexisting sched =
      ((if preexisting then [Event.delete] else []) ++
        (List.range (min W N)).map Event.issue ++ Event.progress 0 ::
          (drain N fetch N (List.range (min W N)) (min W N - 1) sched []).1 ++
          (match (drain N fetch N (List.range (min W N)) (min W N - 1) sched []).2 with
           | Except.ok _ => [Event.progress 100]
           | Except.error _ => []),
       (drain N fetch N (List.range (min W N)) (min W N - 1) sched []).2) := rfl

/-- Zipping the image of one index range with a parallel range is a
map over a single range. -/
theorem zip_range'_eq_map (f : ℕ → ℕ) :
    ∀ n a c : ℕ,
      List.zip ((List.range' a n).map f) (List.range' c n)
        = (List.range n).map fun j => (f (a + j), c + j) := by
  intro n
  induction n with
  | zero => intro a c; rfl
  | succ n ih =>
    intro a c
    rw [List.range'_succ, List.range'_succ, List.map_cons, List.zip_cons_cons,
      ih (a + 1) (c + 1), List.range_succ_eq_map, List.map_cons, List.map_map]
    congr 1
    exact List.map_congr_left fun j hj => by
      have h1 : a + 1 + j = a + (j + 1) := by omega
      have h2 : c + 1 + j = c + (j + 1) := by omega
      simp [h1, h2]

/-- The progress emissions of the drain phase are non-decreasing. -/
theorem chain_le_map_div (N : ℕ) :
    ∀ n a, List.Chain' (· ≤ ·) ((List.range' a n).map fun t => 100 * t / N) := by
  intro n
  induction n with
  | zero => intro a; simp
  | succ n ih =>
    intro a
    rw [List.range'_succ, List.map_cons]
    cases n with
    | zero => simp
    | succ n =>
      rw [List.range'_succ, List.map_cons]
      refine List.chain'_cons.mpr ⟨?_, ?_⟩
      · exact Nat.div_le_div_right (Nat.mul_le_mul_left _ (by omega))
      · have h := ih (a + 1)
        rw [List.range'_succ, List.map_cons] at h
        exact h

/-- Taking exactly the first two blocks of a concatenation. -/
theorem take_exact {α : Type} (xs ys rest : List α) :
    (xs ++ ys ++ rest).take (xs.length + ys.length) = xs ++ ys := by
  exact List.take_left' (by simp)

/-! The ten claims. -/

/-- C1: for every volume whose step axis has extent N ≥ 1 and every
computed window size ≥ 1, run_export appends exactly N pages in
strictly increasing slice-index order 0..N-1 — the writer is handed
slice i's buffer before slice i+1's for every i — regardless of the
order in which the concurrently issued fetches complete: the
completion schedule sched is universally quantified and does not
appear in the conclusion. -/
theorem C1_pages_in_order (N W : ℕ) (fetch : ℕ → Except E D) (data : ℕ → D)
    (preexisting : Bool) (sched : List ℕ) (hN : 1 ≤ N) (hW : 1 ≤ W)
    (hall : ∀ i, i < N → fetch i = Except.ok (data i)) :
    pagesOf (run_export N W fetch preexisting sched).1
      = (List.range N).map fun i => (i, data i) := by
  obtain ⟨hok, hpages, hprog, hcons⟩ :=
    drain_ok N fetch data hall N 0 (min W N) (min W N - 1) sched []
      (by omega) (by omega) (by omega)
  rw [run_export_def, List.range_eq_range', hok]
  cases preexisting <;> simp [hpages, List.range_eq_range']

/-- C1 witness: a 3-slice export with window 2 whose fetches complete
in reverse order still writes pages 0, 1, 2 in that order. -/
theorem C1_pages_in_order_witness :
    pagesOf (run_export 3 2 (fun i => (Except.ok (10 * i) : Except Unit ℕ))
        false [2, 1, 0]).1
      = [(0, 0), (1, 10), (2, 20)] :=
  (C1_pages_in_order 3 2 _ (fun i => 10 * i) false [2, 1, 0] (by decide) (by decide)
    (fun _ _ => rfl)).trans (by decide)

/-- C6 (amended): when at least one fetch is issued (computed window
size ≥ 1) and the source fails at index K with every smaller index
succeeding, run_export propagates exactly the error the source raised
for slice K, exactly K pages (indices 0..K-1) are on disk, nothing is
rolled back, and no page with index ≥ K is ever written. -/
theorem C6_fetch_failure (N K W : ℕ) (fetch : ℕ → Except E D) (data : ℕ → D)
    (err : E) (preexisting : Bool) (sched : List ℕ)
    (hW : 1 ≤ W) (hKN : K < N)
    (hbelow : ∀ i, i < K → fetch i = Except.ok (data i))
    (hK : fetch K = Except.error err) :
    (run_export N W fetch preexisting sched).2 = Except.error err ∧
    pagesOf (run_export N W fetch preexisting sched).1
      = (List.range K).map fun i => (i, data i) := by
  obtain ⟨herr, hpages⟩ :=
    drain_fail N K fetch data err hbelow hK hKN N 0 (min W N) (min W N - 1) sched []
      (by omega) (by omega) (by omega) (by omega)
  rw [run_export_def, List.range_eq_range', herr]
  refine ⟨rfl, ?_⟩
  cases preexisting <;> simp [hpages, List.range_eq_range']

/-- C6 counterexample: as literally stated the claim also covers a
computed window size of 0, where the export silently succeeds without
raising although the fetch for slice 0 fails. -/
theorem C6_counterexample :
    (run_export 1 0 (fun _ => (Except.error 7 : Except ℕ ℕ)) false []).2
        = Except.ok () ∧
    pagesOf (run_export 1 0 (fun _ => (Except.error 7 : Except ℕ ℕ)) false []).1
        = [] := by
  decide

/-- C6 witness: window 2, N = 5, source failing at index 3 with error
payload 3: exactly pages 0..2 are written and error 3 propagates. -/
theorem C6_fetch_failure_witness :
    (run_export 5 2 (fun i => if i < 3 then (Except.ok i : Except ℕ ℕ)
        else Except.error 3) false []).2 = Except.error 3 ∧
    pagesOf (run_export 5 2 (fun i => if i < 3 then (Except.ok i : Except ℕ ℕ)
        else Except.error 3) false []).1 = [(0, 0), (1, 1), (2, 2)] := by
  have h := C6_fetch_failure 5 3 2
    (fun i => if i < 3 then (Except.ok i : Except ℕ ℕ) else Except.error 3)
    (fun i => i) 3 false [] (by decide) (by decide) (by decide) (by decide)
  exact ⟨h.1, h.2.trans (by decide)⟩

/-- C10: when the computed window size parallel_requests is 0 while
the step axis has extent N ≥ 1, run_export issues no fetch, writes no
page, still deletes a pre-existing output file, emits exactly the
progress sequence 0, 100, and returns without raising — a silent
empty export. -/
theorem C10_zero_window (hint : Option ℚ) (availableRam : ℕ)
    (tss : List (Char × ℕ)) (N : ℕ) (fetch : ℕ → Except E D)
    (preexisting : Bool) (sched : List ℕ)
    (hzero : parallelRequests hint availableRam tss = 0) (hN : 1 ≤ N) :
    run_export N (parallelRequests hint availableRam tss) fetch preexisting sched
      = ((if preexisting then [Event.delete] else []) ++
          [Event.progress 0, Event.progress 100], Except.ok ()) ∧
    issuesOf (run_export N (parallelRequests hint availableRam tss) fetch
        preexisting sched).1 = [] ∧
    pagesOf (run_export N (parallelRequests hint availableRam tss) fetch
        preexisting sched).1 = [] ∧
    progressLog (run_export N (parallelRequests hint availableRam tss) fetch
        preexisting sched).1 = [0, 100] := by
  have hmin : min (parallelRequests hint availableRam tss) N = 0 := by omega
  have hrw : run_export N (parallelRequests hint availableRam tss) fetch
      preexisting sched
      = ((if preexisting then [Event.delete] else []) ++
          [Event.progress 0, Event.progress 100], Except.ok ()) := by
    rw [run_export_def, hmin]
    simp [drain_nil]
  refine ⟨hrw, ?_, ?_, ?_⟩ <;> rw [hrw] <;> cases preexisting <;> simp

/-- C10 witness: a positive cost hint with no available memory yields
window 0; a 5-slice volume then exports empty with trace delete,
progress 0, progress 100 and outcome ok. -/
theorem C10_zero_window_witness :
    parallelRequests (some 1) 0 [('z', 1), ('y', 2), ('x', 2)] = 0 ∧
    run_export 5 (parallelRequests (some 1) 0 [('z', 1), ('y', 2), ('x', 2)])
        (fun i => (Except.ok i : Except ℕ ℕ)) true []
      = ([Event.delete, Event.progress 0, Event.progress 100], Except.ok ()) := by
  refine ⟨by simp [parallelRequests, pyInt], ?_⟩
  have h := (C10_zero_window (some 1) 0 [('z', 1), ('y', 2), ('x', 2)] 5
    (fun i => (Except.ok i : Except ℕ ℕ)) true []
    (by simp [parallelRequests, pyInt]) (by decide)).1
  simpa using h

/-- C2: at every point of run_export the number of issued but not yet
consumed fetches is at most min(windowSize, N) — stated over all
prefixes of the event trace — and the fill phase is exactly the
min(windowSize, N) issues that precede the first progress emission,
after which each drain iteration retires one fetch before admitting
at most one new one (that is what keeps every prefix within the
bound). -/
theorem C2_backpressure (N W : ℕ) (fetch : ℕ → Except E D) (preexisting : Bool)
    (sched : List ℕ) (hW : 1 ≤ W) :
    (∀ p, p <+: (run_export N W fetch preexisting sched).1 →
        (issuesOf p).length ≤ min W N + (consumesOf p).length) ∧
    (run_export N W fetch preexisting sched).1.take
        ((if preexisting then 1 else 0) + (min W N + 1))
      = (if preexisting then [Event.delete] else []) ++
          (List.range (min W N)).map Event.issue ++ [Event.progress 0] := by
  have hAB : issuesOf ((if preexisting then [Event.delete] else ([] : List (Event D)))
      ++ (List.range (min W N)).map Event.issue) = List.range (min W N) := by
    cases preexisting <;> simp
  have hABc : consumesOf ((if preexisting then [Event.delete] else ([] : List (Event D)))
      ++ (List.range (min W N)).map Event.issue) = [] := by
    cases preexisting <;> simp
  have hfin : issuesOf (match (drain N fetch N (List.range (min W N))
        (min W N - 1) sched []).2 with
      | Except.ok _ => [Event.progress 100]
      | Except.error _ => ([] : List (Event D))) = [] ∧
      consumesOf (match (drain N fetch N (List.range (min W N))
        (min W N - 1) sched []).2 with
      | Except.ok _ => [Event.progress 100]
      | Except.error _ => ([] : List (Event D))) = [] := by
    rcases (drain N fetch N (List.range (min W N)) (min W N - 1) sched []).2 with _ | e <;>
      simp
  constructor
  · intro p hp
    rw [run_export_def] at hp
    rcases prefix_append_split hp with h1 | ⟨t, rfl, ht⟩
    · rcases prefix_append_split h1 with h2 | ⟨q, rfl, hq⟩
      · -- within the deletion and fill blocks: at most min W N issues, by length
        have hsub : List.Sublist (issuesOf p)
            (issuesOf ((if preexisting then [Event.delete] else ([] : List (Event D)))
              ++ (List.range (min W N)).map Event.issue)) :=
          h2.sublist.filterMap _
        rw [hAB] at hsub
        have hlen := hsub.length_le
        simp only [List.length_range] at hlen
        omega
      · rcases List.prefix_cons_iff.mp hq with h0 | ⟨r, rfl, hr⟩
        · -- exactly the fill: min W N issues, no consume yet
          subst h0
          simp only [List.append_nil, issuesOf_append, consumesOf_append, hAB, hABc,
            List.length_range, List.length_append, List.length_nil]
          omega
        · -- inside the drain phase: one-in-one-out keeps the bound
          have hout := drain_outstanding N fetch (min W N) N (List.range (min W N))
            (min W N - 1) sched [] (by simp) r hr
          simp only [List.length_range] at hout
          simp only [issuesOf_append, consumesOf_append, hAB, hABc, issuesOf_progress,
            consumesOf_progress, List.length_append, List.length_range,
            List.length_nil, List.nil_append] at *
          omega
    · -- past the drain phase: only the final progress emission remains
      have hout := drain_outstanding N fetch (min W N) N (List.range (min W N))
        (min W N - 1) sched [] (by simp)
        (drain N fetch N (List.range (min W N)) (min W N - 1) sched []).1
        List.prefix_rfl
      simp only [List.length_range] at hout
      have hti : issuesOf t = [] := by
        have hsub : List.Sublist (issuesOf t)
            (issuesOf (match (drain N fetch N (List.range (min W N))
                (min W N - 1) sched []).2 with
              | Except.ok _ => [Event.progress 100]
              | Except.error _ => ([] : List (Event D)))) :=
          ht.sublist.filterMap _
        rw [hfin.1] at hsub
        exact List.sublist_nil.mp hsub
      have htc : consumesOf t = [] := by
        have hsub : List.Sublist (consumesOf t)
            (consumesOf (match (drain N fetch N (List.range (min W N))
                (min W N - 1) sched []).2 with
              | Except.ok _ => [Event.progress 100]
              | Except.error _ => ([] : List (Event D)))) :=
          ht.sublist.filterMap _
        rw [hfin.2] at hsub
        exact List.sublist_nil.mp hsub
      simp only [issuesOf_append, consumesOf_append, hAB, hABc, issuesOf_progress,
        consumesOf_progress, hti, htc, List.length_append, List.length_range,
        List.length_nil, List.nil_append] at *
      omega
  · rw [run_export_def]
    have hsh : (if preexisting then [Event.delete] else ([] : List (Event D))) ++
        (List.range (min W N)).map Event.issue ++ Event.progress 0 ::
          (drain N fetch N (List.range (min W N)) (min W N - 1) sched []).1 ++
          (match (drain N fetch N (List.range (min W N)) (min W N - 1) sched []).2 with
           | Except.ok _ => [Event.progress 100]
           | Except.error _ => [])
        = ((if preexisting then [Event.delete] else ([] : List (Event D))) ++
            (List.range (min W N)).map Event.issue ++ [Event.progress 0]) ++
          ((drain N fetch N (List.range (min W N)) (min W N - 1) sched []).1 ++
            (match (drain N fetch N (List.range (min W N)) (min W N - 1) sched []).2 with
             | Except.ok _ => [Event.progress 100]
             | Except.error _ => [])) := by
      simp
    rw [hsh, List.take_left' (by cases preexisting <;> simp [Nat.add_comm])]

/-- C2 witness: a concrete prefix of a window-2 export of 5 slices
satisfies the outstanding-fetch bound. -/
theorem C2_backpressure_witness :
    (issuesOf ((run_export 5 2 (fun i => (Except.ok i : Except ℕ ℕ)) false []).1.take 4)).length
      ≤ min 2 5 + (consumesOf ((run_export 5 2 (fun i => (Except.ok i : Except ℕ ℕ))
          false []).1.take 4)).length :=
  (C2_backpressure 5 2 (fun i => (Except.ok i : Except ℕ ℕ)) false [] (by decide)).1
    _ (List.take_prefix 4 _)

/-- C3 counterexample: with N = 10 and window 4, the drain iteration
that consumes slice 0 emits 30, not 100*0/10 = 0: the Python variable
slice_index still holds the last filled index when the loop emits. -/
theorem C3_counterexample :
    pcPairs none (run_export 10 4 (fun i => (Except.ok i : Except Unit ℕ)) false []).1
      = [(30, 0), (40, 1), (50, 2), (60, 3), (70, 4), (80, 5), (90, 6), (100, 7),
         (110, 8), (120, 9)] ∧
    (30 : ℕ) ≠ 100 * 0 / 10 := by
  decide

/-- C3 (amended): on a successful export with window size ≥ 1 and
N ≥ 1, the progress value emitted at the start of the drain iteration
that consumes slice i equals 100*(i + min(windowSize, N) - 1)/N with
integer division — offset by the fill size minus one from the claimed
100*i/N. -/
theorem C3_progress_pairs (N W : ℕ) (fetch : ℕ → Except E D) (data : ℕ → D)
    (preexisting : Bool) (sched : List ℕ) (hN : 1 ≤ N) (hW : 1 ≤ W)
    (hall : ∀ i, i < N → fetch i = Except.ok (data i)) :
    pcPairs none (run_export N W fetch preexisting sched).1
      = (List.range N).map fun i => (100 * (min W N - 1 + i) / N, i) := by
  rw [run_export_def, List.range_eq_range']
  have hpairs := drain_pairs N fetch data hall N 0 (min W N) (min W N - 1) sched []
    (some 0)
    (match (drain N fetch N (List.range' 0 (min W N)) (min W N - 1) sched []).2 with
     | Except.ok _ => [Event.progress 100]
     | Except.error _ => ([] : List (Event D)))
    (by omega) (by omega) (by omega)
  have hni : pcPairs none
      (match (drain N fetch N (List.range' 0 (min W N)) (min W N - 1) sched []).2 with
       | Except.ok _ => [Event.progress 100]
       | Except.error _ => ([] : List (Event D))) = [] := by
    rcases (drain N fetch N (List.range' 0 (min W N)) (min W N - 1) sched []).2 with _ | e <;>
      rfl
  simp only [List.append_assoc, List.cons_append, List.singleton_append,
    List.nil_append]
  rw [pcPairs_delete_if, pcPairs_map_issue, pcPairs_progress, hpairs, hni]
  simp [zip_range'_eq_map]

/-- C3 witness: N = 4 with window 2 — the iteration consuming slice i
emits 100*(1 + i)/4, giving the pairs (25,0), (50,1), (75,2), (100,3). -/
theorem C3_progress_pairs_witness :
    pcPairs none (run_export 4 2 (fun i => (Except.ok i : Except Unit ℕ)) false []).1
      = [(25, 0), (50, 1), (75, 2), (100, 3)] :=
  (C3_progress_pairs 4 2 _ (fun i => i) false [] (by decide) (by decide)
    (fun _ _ => rfl)).trans (by decide)

/-- C7 counterexample: with N = 3 and window 3 the emitted sequence is
0, 66, 100, 133, 100 — values exceed 100 and the final 100 is a
decrease, refuting both the [0,100] bound and monotonicity. -/
theorem C7_counterexample :
    progressLog (run_export 3 3 (fun i => (Except.ok i : Except Unit ℕ)) false []).1
      = [0, 66, 100, 133, 100] ∧
    ¬ List.Chain' (· ≤ ·) [0, 66, 100, 133, (100 : ℕ)] ∧
    ¬ (133 : ℕ) ≤ 100 := by
  refine ⟨by decide, by simp [List.chain'_cons], by decide⟩

/-- C7 (amended): for every successful export the emitted progress
values are naturals that begin with 0 and end with 100, every emission
except the final 100 is non-decreasing, and when the window is empty
from the start the sequence is exactly 0, 100; the drain emissions are
not bounded by 100 and the final 100 can be a decrease (see the
counterexample), so monotonicity of the full sequence fails in
general. -/
theorem C7_progress_shape (N W : ℕ) (fetch : ℕ → Except E D) (data : ℕ → D)
    (preexisting : Bool) (sched : List ℕ)
    (hall : ∀ i, i < N → fetch i = Except.ok (data i)) :
    (progressLog (run_export N W fetch preexisting sched).1).head? = some 0 ∧
    (progressLog (run_export N W fetch preexisting sched).1).getLast? = some 100 ∧
    List.Chain' (· ≤ ·)
      (progressLog (run_export N W fetch preexisting sched).1).dropLast ∧
    (min W N = 0 →
      progressLog (run_export N W fetch preexisting sched).1 = [0, 100]) := by
  rcases Nat.eq_zero_or_pos (min W N) with hw0 | hpos
  · have hrw : progressLog (run_export N W fetch preexisting sched).1 = [0, 100] := by
      rw [run_export_def, hw0]
      cases preexisting <;> simp [drain_nil]
    rw [hrw]
    exact ⟨rfl, rfl, by simp, fun _ => rfl⟩
  · have hN : 1 ≤ N := by omega
    obtain ⟨hok, hpages, hprog, hcons⟩ :=
      drain_ok N fetch data hall N 0 (min W N) (min W N - 1) sched []
        (by omega) (by omega) (by omega)
    have hlog : progressLog (run_export N W fetch preexisting sched).1
        = (0 :: ((List.range' (min W N - 1) N).map fun t => 100 * t / N)) ++ [100] := by
      rw [run_export_def, List.range_eq_range', hok]
      cases preexisting <;> simp [hprog]
    rw [hlog]
    refine ⟨by simp, by rw [List.getLast?_concat], ?_, fun h => absurd h (by omega)⟩
    rw [List.dropLast_concat]
    refine List.chain'_cons'.mpr ⟨fun y _ => Nat.zero_le y, ?_⟩
    exact chain_le_map_div N N (min W N - 1)

/-- C7 witness: N = 3 with window 1 emits 0, 0, 33, 66, 100 — head 0,
last 100, all but the final emission non-decreasing. -/
theorem C7_progress_shape_witness :
    (progressLog (run_export 3 1 (fun i => (Except.ok i : Except Unit ℕ)) false []).1).head?
        = some 0 ∧
    (progressLog (run_export 3 1 (fun i => (Except.ok i : Except Unit ℕ)) false []).1).getLast?
        = some 100 ∧
    List.Chain' (· ≤ ·)
      (progressLog (run_export 3 1 (fun i => (Except.ok i : Except Unit ℕ)) false []).1).dropLast ∧
    (min 1 3 = 0 →
      progressLog (run_export 3 1 (fun i => (Except.ok i : Except Unit ℕ)) false []).1
        = [0, 100]) :=
  C7_progress_shape 3 1 _ (fun i => i) false [] (fun _ _ => rfl)

unseal Rat.mul Rat.inv in
/-- C4 counterexample: a positive cost hint with pixels-per-slice 20
and reported available memory 2 yields int(1 / 20) = 0, not a window
of at least 1: the source applies no flooring to 1. -/
theorem C4_counterexample :
    parallelRequests (some 1) 2 [('z', 1), ('y', 4), ('x', 5)] = 0 ∧
    ¬ 1 ≤ parallelRequests (some 1) 2 [('z', 1), ('y', 4), ('x', 5)] := by
  decide

/-- Monotonicity of int() on non-negative rationals. -/
theorem pyInt_mono {a b : ℚ} (h0 : 0 ≤ a) (h : a ≤ b) : pyInt a ≤ pyInt b := by
  rw [pyInt, pyInt, if_pos h0, if_pos (le_trans h0 h)]
  exact Int.floor_le_floor h

/-- C4 (amended): with a positive cost hint and a positive
pixels-per-slice, the computed window size equals the integer obtained
by dividing half the reported available memory by pixels-per-slice
times the cost, where pixels-per-slice is the product of the
slice-shape extents divided by the channel extent when a channel axis
exists — exactly the spec's formula (sizeSpec) — but the result is not
floored to 1 and can be 0 (see the counterexample). -/
theorem C4_sizer_formula (tss : List (Char × ℕ)) (cost : ℚ) (availableRam : ℕ)
    (hc : 0 < cost) (hp : 0 < pixelsPerSlice tss) :
    (parallelRequests (some cost) availableRam tss : ℤ)
      = sizeSpec cost availableRam (tss.map Prod.snd)
          (if hasAxis tss 'c' then some (lookupExtent tss 'c') else none) := by
  have hpq : (0 : ℚ) < (pixelsPerSlice tss : ℚ) := by exact_mod_cast hp
  have hrus : (0 : ℚ) < (pixelsPerSlice tss : ℚ) * cost := mul_pos hpq hc
  have hq0 : (0 : ℚ) ≤ (availableRam : ℚ) * (1 / 2) / ((pixelsPerSlice tss : ℚ) * cost) :=
    div_nonneg (by positivity) hrus.le
  have hpps : ((pixelsPerSlice tss : ℕ) : ℚ)
      = (((tss.map Prod.snd).prod : ℕ) : ℚ) /
          (((if hasAxis tss 'c' then some (lookupExtent tss 'c') else none).getD 1 : ℕ) : ℚ) := by
    by_cases hax : hasAxis tss 'c'
    · obtain ⟨kv, hkv⟩ : ∃ kv, tss.find? (fun kv => kv.1 = 'c') = some kv :=
        Option.isSome_iff_exists.mp hax
      have hlook : lookupExtent tss 'c' = kv.2 := by
        simp [lookupExtent, hkv]
      have hdvd : lookupExtent tss 'c' ∣ (tss.map Prod.snd).prod := by
        rw [hlook]
        exact List.dvd_prod (List.mem_map_of_mem Prod.snd (List.mem_of_find?_eq_some hkv))
      have hne : lookupExtent tss 'c' ≠ 0 := by
        intro h0
        rw [pixelsPerSlice] at hp
        simp only [hax, if_true, h0, Nat.div_zero] at hp
        exact absurd hp (by omega)
      have hneq : ((lookupExtent tss 'c' : ℕ) : ℚ) ≠ 0 := by exact_mod_cast hne
      rw [pixelsPerSlice]
      simp only [hax, if_true, Option.getD_some]
      exact Nat.cast_div hdvd hneq
    · simp [pixelsPerSlice, hax]
  simp only [parallelRequests, sizeSpec, pyInt, if_pos hq0]
  rw [Int.toNat_of_nonneg (Int.floor_nonneg.mpr hq0)]
  congr 1
  rw [hpps]
  ring

unseal Rat.mul Rat.inv in
/-- C4 witness: cost 2 with slice shape 1x2x2x3 (channel extent 2) and
available memory 100 gives pixels-per-slice 6 and window
int(50 / 12) = 4, matching the spec formula. -/
theorem C4_sizer_formula_witness :
    0 < (2 : ℚ) ∧ 0 < pixelsPerSlice [('z', 1), ('c', 2), ('y', 2), ('x', 3)] ∧
    (parallelRequests (some 2) 100 [('z', 1), ('c', 2), ('y', 2), ('x', 3)] : ℤ)
      = sizeSpec 2 100 ([('z', 1), ('c', 2), ('y', 2), ('x', 3)].map Prod.snd)
          (if hasAxis [('z', 1), ('c', 2), ('y', 2), ('x', 3)] 'c'
           then some (lookupExtent [('z', 1), ('c', 2), ('y', 2), ('x', 3)] 'c')
           else none) ∧
    parallelRequests (some 2) 100 [('z', 1), ('c', 2), ('y', 2), ('x', 3)] = 4 :=
  ⟨by decide, by decide,
    C4_sizer_formula [('z', 1), ('c', 2), ('y', 2), ('x', 3)] 2 100 (by decide) (by decide),
    by decide⟩

/-- C8: when the per-pixel cost hint is absent the window size is the
fixed DEFAULT_BATCH_SIZE = 4, whatever the available memory and the
slice shape. -/
theorem C8_default_window (availableRam : ℕ) (tss : List (Char × ℕ)) :
    parallelRequests none availableRam tss = DEFAULT_BATCH_SIZE ∧
    DEFAULT_BATCH_SIZE = 4 :=
  ⟨rfl, rfl⟩

/-- C9: with the cost hint present, doubling the reported available
memory does not decrease the computed window size, and doubling the
per-pixel cost does not increase it. -/
theorem C9_sizer_monotone (tss : List (Char × ℕ)) (cost : ℚ) (availableRam : ℕ)
    (hc : 0 < cost) (hp : 0 < pixelsPerSlice tss) :
    parallelRequests (some cost) availableRam tss
        ≤ parallelRequests (some cost) (2 * availableRam) tss ∧
    parallelRequests (some (2 * cost)) availableRam tss
        ≤ parallelRequests (some cost) availableRam tss := by
  have hpq : (0 : ℚ) < (pixelsPerSlice tss : ℚ) := by exact_mod_cast hp
  have hrus : (0 : ℚ) < (pixelsPerSlice tss : ℚ) * cost := mul_pos hpq hc
  have hrus2 : (0 : ℚ) < (pixelsPerSlice tss : ℚ) * (2 * cost) := by positivity
  have ha : (0 : ℚ) ≤ (availableRam : ℚ) := Nat.cast_nonneg _
  constructor
  · simp only [parallelRequests]
    apply Int.toNat_le_toNat
    apply pyInt_mono (div_nonneg (by positivity) hrus.le)
    apply (div_le_div_iff_of_pos_right hrus).mpr
    push_cast
    linarith
  · simp only [parallelRequests]
    apply Int.toNat_le_toNat
    apply pyInt_mono (div_nonneg (by positivity) hrus2.le)
    gcongr
    linarith

unseal Rat.mul Rat.inv in
/-- C9 witness: slice shape 1x2, cost 1, memory 16: window 4 vs 8 when
memory doubles, and 2 vs 4 when the cost doubles. -/
theorem C9_sizer_monotone_witness :
    0 < (1 : ℚ) ∧ 0 < pixelsPerSlice [('z', 1), ('y', 2)] ∧
    parallelRequests (some 1) 16 [('z', 1), ('y', 2)]
        ≤ parallelRequests (some 1) (2 * 16) [('z', 1), ('y', 2)] ∧
    parallelRequests (some (2 * 1)) 16 [('z', 1), ('y', 2)]
        ≤ parallelRequests (some 1) 16 [('z', 1), ('y', 2)] :=
  ⟨by decide, by decide,
    (C9_sizer_monotone [('z', 1), ('y', 2)] 1 16 (by decide) (by decide)).1,
    (C9_sizer_monotone [('z', 1), ('y', 2)] 1 16 (by decide) (by decide)).2⟩

/-- C5 counterexample: two divergences from the claim.  First, a
3-axis non-singleton shape whose first (step) axis is the channel
axis passes the setup assert, although the claim counts a channel
axis in the step position among the failing shapes.  Second, a shape
with 0 non-singleton axes fails with the IndexError raised inside
get_nonsingleton_axes_for_tagged_shape (zip of an empty list), not
with the invalid-shape error the claim asserts. -/
theorem C5_counterexample :
    get_nonsingleton_axes_for_tagged_shape [('c', 3), ('x', 4), ('y', 5)]
        = some ['c', 'x', 'y'] ∧
    (setupOutputs [('c', 3), ('x', 4), ('y', 5)] : Except (ExportError ℕ) (List Char))
        = Except.ok ['c', 'x', 'y'] ∧
    (setupOutputs [('z', 1), ('y', 1)] : Except (ExportError ℕ) (List Char))
        = Except.error ExportError.indexError ∧
    (setupOutputs [('z', 1), ('y', 1)] : Except (ExportError ℕ) (List Char))
        ≠ Except.error ExportError.invalidShape := by
  decide

/-- C5 (amended): classification succeeds exactly when the sequence
of axes with extent greater than 1, in original tagged-shape order,
has length 3 — the channel axis may sit anywhere, including the step
position — or length 4 with the channel axis among the last 3.  Every
other shape issues no fetch, but the error differs: a shape with no
non-singleton axis fails with the IndexError raised while listing the
axes (zip of an empty list, before the shape assert runs), and every
other failing shape (1, 2, or 5 and more non-singleton axes, or 4
with the channel axis first) fails the assert with the invalid-shape
error. -/
theorem C5_classifier (ts : List (Char × ℕ)) (hint : Option ℚ) (availableRam : ℕ)
    (fetch : ℕ → Except E D) (preexisting : Bool) (sched : List ℕ) :
    ((setupOutputs ts : Except (ExportError E) (List Char)).isOk = true ↔
      (((ts.filter fun kv => 1 < kv.2).map Prod.fst).length = 3 ∨
        (((ts.filter fun kv => 1 < kv.2).map Prod.fst).length = 4 ∧
          'c' ∈ ((ts.filter fun kv => 1 < kv.2).map Prod.fst).drop 1))) ∧
    ((ts.filter fun kv => 1 < kv.2) = [] →
      opExport ts hint availableRam fetch preexisting sched
        = ([], Except.error ExportError.indexError)) ∧
    ((ts.filter fun kv => 1 < kv.2) ≠ [] →
      ¬ (((ts.filter fun kv => 1 < kv.2).map Prod.fst).length = 3 ∨
        (((ts.filter fun kv => 1 < kv.2).map Prod.fst).length = 4 ∧
          'c' ∈ ((ts.filter fun kv => 1 < kv.2).map Prod.fst).drop 1)) →
      opExport ts hint availableRam fetch preexisting sched
        = ([], Except.error ExportError.invalidShape)) := by
  rcases hfil : ts.filter fun kv => 1 < kv.2 with _ | ⟨kv0, rest⟩
  · refine ⟨?_, fun _ => ?_, fun hne _ => absurd hfil hne⟩
    · simp [setupOutputs, get_nonsingleton_axes_for_tagged_shape, hfil, Except.isOk,
        Except.toBool]
    · simp [opExport, setupOutputs, get_nonsingleton_axes_for_tagged_shape, hfil]
  · have hget : get_nonsingleton_axes_for_tagged_shape ts
        = some ((kv0 :: rest).map Prod.fst) := by
      simp [get_nonsingleton_axes_for_tagged_shape, hfil]
    refine ⟨?_, fun h => absurd (hfil.symm.trans h) (by simp), fun _ hcond => ?_⟩
    · rw [hfil]
      by_cases hv : setupValid ((kv0 :: rest).map Prod.fst) = true
      · simp only [setupOutputs, hget, hv, if_true, Except.isOk, Except.toBool,
          true_iff]
        simpa [setupValid] using hv
      · simp only [setupOutputs, hget, hv, if_false, Bool.if_false_right,
          Except.isOk, Except.toBool]
        constructor
        · intro h
          simp [hv] at h
        · intro h
          exact absurd (by simpa [setupValid] using h) hv
    · rw [hfil] at hcond
      have hv : setupValid ((kv0 :: rest).map Prod.fst) = false := by
        rw [Bool.eq_false_iff]
        intro h
        exact hcond (by simpa [setupValid] using h)
      have hv2 : setupValid (kv0.1 :: rest.map Prod.fst) = false := by
        simpa using hv
      simp [opExport, setupOutputs, hget, hv, hv2]

/-- C5 witness: a shape with only 2 non-singleton axes fails the
assert with the invalid-shape error, and an all-singleton shape stops
earlier with the IndexError; neither issues a fetch. -/
theorem C5_classifier_witness :
    opExport [('x', 2), ('y', 3)] none 0 (fun i => (Except.ok i : Except ℕ ℕ)) false []
        = ([], Except.error ExportError.invalidShape) ∧
    opExport [('z', 1)] none 0 (fun i => (Except.ok i : Except ℕ ℕ)) false []
        = ([], Except.error ExportError.indexError) :=
  ⟨(C5_classifier [('x', 2), ('y', 3)] none 0 _ false []).2.2 (by decide) (by decide),
    (C5_classifier [('z', 1)] none 0 _ false []).2.1 (by decide)⟩

end LazyflowExport
